import Mathlib

/-!
Verification of the relevance-filtering and deal-scoring pipeline of the
promo-alerts RSS monitor.  The definitions below are a shallow embedding of
the pure decision functions in `src/app/main.py` (class `PromoAlertsMonitor`)
and `src/app/flight_price_apis.py` (class `FlightPriceChecker`).  Strings are
modelled as `List Char`; Python `None`/exceptions are modelled with `Option`;
Python floats over prices are modelled as exact rationals.
-/

namespace PromoAlerts

/-- Whitespace characters of the Python regex class `\s` and of `str.strip`
(ASCII range: space, tab, newline, carriage return, vertical tab, form feed). -/
def isWS (c : Char) : Bool :=
  c == ' ' || c == '\t' || c == '\n' || c == '\r' || c == Char.ofNat 11 || c == Char.ofNat 12

/-- ASCII decimal digit, the characters matched by the regex class `\d` on the
inputs considered. -/
def isDigit (c : Char) : Bool :=
  decide ('0' ≤ c) && decide (c ≤ '9')

/-- Python substring containment `needle in hay` over character lists. -/
def containsSub (n : List Char) : List Char → Bool
  | [] => n.isEmpty
  | l@(_ :: rest) => n.isPrefixOf l || containsSub n rest

/-- ASCII lower-casing table, the effect of Python `str.lower` on the
characters that reach it in this pipeline (accented letters are decomposed
before lower-casing, see `normalize_text`). -/
def lowerTable : List (Char × Char) :=
  [('A', 'a'), ('B', 'b'), ('C', 'c'), ('D', 'd'), ('E', 'e'), ('F', 'f'),
   ('G', 'g'), ('H', 'h'), ('I', 'i'), ('J', 'j'), ('K', 'k'), ('L', 'l'),
   ('M', 'm'), ('N', 'n'), ('O', 'o'), ('P', 'p'), ('Q', 'q'), ('R', 'r'),
   ('S', 's'), ('T', 't'), ('U', 'u'), ('V', 'v'), ('W', 'w'), ('X', 'x'),
   ('Y', 'y'), ('Z', 'z')]

def pyLower (c : Char) : Char :=
  match lowerTable.find? (fun p => p.1 == c) with
  | some p => p.2
  | none => c

/-- Python `str.lower` over a character list. -/
def lowerL (l : List Char) : List Char := l.map pyLower

def combGrave : Char := Char.ofNat 768
def combAcute : Char := Char.ofNat 769
def combCirc : Char := Char.ofNat 770
def combTilde : Char := Char.ofNat 771
def combDiaer : Char := Char.ofNat 776
def combCedil : Char := Char.ofNat 807

/-- Unicode NFD decomposition, restricted to the Latin letters relevant to the
Portuguese-language feed texts this program processes.  Each accented letter
decomposes into its base letter followed by a combining mark (category Mn). -/
def decompTable : List (Char × List Char) :=
  [('á', ['a', combAcute]), ('à', ['a', combGrave]), ('â', ['a', combCirc]),
   ('ã', ['a', combTilde]), ('ä', ['a', combDiaer]),
   ('é', ['e', combAcute]), ('è', ['e', combGrave]), ('ê', ['e', combCirc]),
   ('ë', ['e', combDiaer]),
   ('í', ['i', combAcute]), ('ì', ['i', combGrave]), ('î', ['i', combCirc]),
   ('ï', ['i', combDiaer]),
   ('ó', ['o', combAcute]), ('ò', ['o', combGrave]), ('ô', ['o', combCirc]),
   ('õ', ['o', combTilde]), ('ö', ['o', combDiaer]),
   ('ú', ['u', combAcute]), ('ù', ['u', combGrave]), ('û', ['u', combCirc]),
   ('ü', ['u', combDiaer]),
   ('ç', ['c', combCedil]), ('ñ', ['n', combTilde]),
   ('Á', ['A', combAcute]), ('À', ['A', combGrave]), ('Â', ['A', combCirc]),
   ('Ã', ['A', combTilde]), ('Ä', ['A', combDiaer]),
   ('É', ['E', combAcute]), ('È', ['E', combGrave]), ('Ê', ['E', combCirc]),
   ('Ë', ['E', combDiaer]),
   ('Í', ['I', combAcute]), ('Ì', ['I', combGrave]), ('Î', ['I', combCirc]),
   ('Ï', ['I', combDiaer]),
   ('Ó', ['O', combAcute]), ('Ò', ['O', combGrave]), ('Ô', ['O', combCirc]),
   ('Õ', ['O', combTilde]), ('Ö', ['O', combDiaer]),
   ('Ú', ['U', combAcute]), ('Ù', ['U', combGrave]), ('Û', ['U', combCirc]),
   ('Ü', ['U', combDiaer]),
   ('Ç', ['C', combCedil]), ('Ñ', ['N', combTilde])]

def decomp (c : Char) : List Char :=
  match decompTable.find? (fun p => p.1 == c) with
  | some p => p.2
  | none => [c]

/-- Combining marks (Unicode category Mn within the combining diacritical
marks block), the characters discarded by `normalize_text`. -/
def isMark (c : Char) : Bool :=
  decide (768 ≤ c.toNat) && decide (c.toNat ≤ 879)

/-- A character that the normalization pipeline leaves unchanged. -/
def inertChar (c : Char) : Bool :=
  decide (decomp c = [c]) && !isMark c && decide (pyLower c = c)

def trimL (l : List Char) : List Char := l.dropWhile isWS

def trimR (l : List Char) : List Char := (trimL l.reverse).reverse

/-- Python `str.strip`: remove leading and trailing whitespace. -/
def stripL (l : List Char) : List Char := trimR (trimL l)

/-- NFD-decompose, drop combining marks, lower-case (the body of
`normalize_text` before the final strip). -/
def normPipe (l : List Char) : List Char :=
  ((l.flatMap decomp).filter (fun c => !isMark c)).map pyLower

def normL (l : List Char) : List Char := stripL (normPipe l)

/-- `normalize_text` from `src/app/main.py` (lines 108-116): empty input maps
to the empty string, otherwise decompose, drop accents, lower-case, strip. -/
def normalize_text (t : List Char) : List Char :=
  if t.isEmpty then [] else normL t

/-- `normalize_text` lifted to possibly-null input (`if not text: return ""`
also catches `None`). -/
def normalize_textOpt (t : Option (List Char)) : List Char :=
  match t with
  | none => []
  | some s => normalize_text s

/-- The normalized combined text `normalize_text(f"{title} {summary}".lower())`
built by every filter predicate in `src/app/main.py`. -/
def ntextOf (title summary : List Char) : List Char :=
  normalize_text (lowerL (title ++ ' ' :: summary))

/-- The padded text `f" {normalized_text} "` used for word-bounded token tests. -/
def padSp (t : List Char) : List Char := ' ' :: t ++ [' ']

/-! ## Keyword predicate (`check_keyword_filter`, main.py lines 189-250) -/

/-- Condition 1 of the keyword filter (main.py lines 201-217): the normalized
text mentions Recife / PE / REC / Pernambuco. -/
def hasRecife (ntext : List Char) : Bool :=
  containsSub (normalize_text (("recife").toList)) ntext ||
  containsSub (normalize_text (("pernambuco").toList)) ntext ||
  containsSub ((" rec ").toList) (padSp ntext) ||
  containsSub (("-rec ").toList) ntext ||
  containsSub ((" rec-").toList) ntext ||
  containsSub (("rec.").toList) ntext ||
  containsSub (("gru-rec").toList) ntext ||
  containsSub (("sp-rec").toList) ntext ||
  containsSub ((" pe ").toList) (padSp ntext) ||
  containsSub (("sp-pe").toList) ntext ||
  containsSub (("para pe ").toList) (padSp ntext) ||
  containsSub (("destino pe").toList) ntext ||
  containsSub (("rumo pe").toList) ntext

/-- The flight/travel terms of condition 2 (main.py lines 220-243). -/
def passagemTerms : List (List Char) :=
  [normalize_text (("passagem").toList), normalize_text (("passagens").toList),
   normalize_text (("voo").toList), normalize_text (("voos").toList),
   normalize_text (("viagem").toList), normalize_text (("viagens").toList),
   normalize_text (("azul").toList), normalize_text (("gol").toList),
   normalize_text (("latam").toList),
   normalize_text (("guarulhos").toList), normalize_text (("congonhas").toList),
   ("gru").toList, ("cgh").toList,
   normalize_text (("voar").toList), normalize_text (("aereo").toList),
   normalize_text (("aerea").toList), normalize_text (("aereas").toList),
   normalize_text (("bilhete").toList), normalize_text (("bilhetes").toList)]

def hasPassagemTerms (ntext : List Char) : Bool :=
  passagemTerms.any (fun term => containsSub term ntext)

/-- Condition 3 (main.py lines 246-247): configured mileage keywords. -/
def hasMilesTerms (miles_keywords : List (List Char)) (ntext : List Char) : Bool :=
  miles_keywords.any (fun term => containsSub (normalize_text term) ntext)

structure KeywordsConfig where
  enabled : Bool
  miles_keywords : List (List Char)

/-- `check_keyword_filter` (main.py lines 189-250): pass-through when the
section is disabled; otherwise require a Recife indicator AND (a flight term
OR a configured mileage keyword) in the normalized title+summary text. -/
def check_keyword_filter (cfg : KeywordsConfig) (title summary : List Char) : Bool :=
  if !cfg.enabled then true
  else
    hasRecife (ntextOf title summary) &&
      (hasPassagemTerms (ntextOf title summary) ||
        hasMilesTerms cfg.miles_keywords (ntextOf title summary))

/-! ## Route predicate (`check_route_filter`, main.py lines 143-187) -/

/-- The route separator string `" -> "`. -/
def arrowSep : List Char := [' ', '-', '>', ' ']

/-- Python `route.split(' -> ')`: split on every (non-overlapping, leftmost)
occurrence of the separator. -/
def splitArrow : List Char → List (List Char)
  | ' ' :: '-' :: '>' :: ' ' :: rest => [] :: splitArrow rest
  | c :: rest =>
    match splitArrow rest with
    | [] => [[c]]
    | p :: ps => (c :: p) :: ps
  | [] => [[]]

/-- One iteration of the include/exclude loops of `check_route_filter`:
`origin, destination = route.split(' -> ')` raises `ValueError` (modelled as
`none`) unless the split yields exactly two parts. -/
def routeEntryCheck (ntext route : List Char) : Option Bool :=
  if containsSub arrowSep route then
    match splitArrow route with
    | [o, d] =>
      some (containsSub (normalize_text o) ntext && containsSub (normalize_text d) ntext)
    | _ => none
  else some (containsSub (normalize_text route) ntext)

/-- The include loop: first matching entry returns `True`; a malformed entry
reached before any match propagates the exception; exhaustion returns `False`. -/
def loopIncl (ntext : List Char) : List (List Char) → Option Bool
  | [] => some false
  | r :: rs =>
    match routeEntryCheck ntext r with
    | none => none
    | some true => some true
    | some false => loopIncl ntext rs

/-- The exclude loop: first matching entry returns `False`; exhaustion returns
`True`. -/
def loopExcl (ntext : List Char) : List (List Char) → Option Bool
  | [] => some true
  | r :: rs =>
    match routeEntryCheck ntext r with
    | none => none
    | some true => some false
    | some false => loopExcl ntext rs

structure RoutesConfig where
  enabled : Bool
  includeRoutes : List (List Char)
  excludeRoutes : List (List Char)

/-- `check_route_filter` (main.py lines 143-187).  The result is `none` when
the Python function would raise (a route entry with two or more separators
reached during evaluation). -/
def check_route_filter (cfg : RoutesConfig) (title summary : List Char) : Option Bool :=
  if !cfg.enabled then some true
  else if !cfg.includeRoutes.isEmpty then loopIncl (ntextOf title summary) cfg.includeRoutes
  else loopExcl (ntextOf title summary) cfg.excludeRoutes

/-- The matching relation of a single well-formed include/exclude entry:
a `"Origin -> Destination"` entry matches when both normalized parts occur in
the normalized text, a bare location when its normalized form occurs. -/
def entryMatches (ntext route : List Char) : Bool :=
  if containsSub arrowSep route then
    match splitArrow route with
    | [o, d] => containsSub (normalize_text o) ntext && containsSub (normalize_text d) ntext
    | _ => false
  else containsSub (normalize_text route) ntext

/-- A route entry on which `route.split(' -> ')` unpacks without raising. -/
def wellFormedRoute (route : List Char) : Bool :=
  !containsSub arrowSep route || (splitArrow route).length == 2

/-! ## Price extraction (`extract_price`, main.py lines 118-141)

The four regular expressions are embedded as explicit scanners with the
backtracking order of the Python `re` engine (leftmost match; greedy
`\d{1,3}`, `(?:\.\d{3})*`, `(?:,\d{2})?` with longest-first alternatives). -/

def dropWS (l : List Char) : List Char := l.dropWhile isWS

/-- Case-insensitive literal match: strip `pat` (given lower-case) from the
front of the text, comparing lower-cased characters. -/
def stripCI : List Char → List Char → Option (List Char)
  | [], l => some l
  | _ :: _, [] => none
  | p :: ps, c :: cs => if pyLower c == p then stripCI ps cs else none

/-- Alternatives for `\d{1,3}` at the current position, greedy (longest
first); each yields the consumed digits and the rest of the text. -/
def digitCands (l : List Char) : List (List Char × List Char) :=
  (List.range ((l.takeWhile isDigit).take 3).length).map
    (fun i =>
      (((l.takeWhile isDigit).take 3).take (((l.takeWhile isDigit).take 3).length - i),
        l.drop (((l.takeWhile isDigit).take 3).length - i)))

/-- Alternatives for `(?:\.\d{3})*` at the current position, greedy (most
groups first). -/
def thousandsCands : List Char → List (List Char × List Char)
  | l@('.' :: d1 :: d2 :: d3 :: rest) =>
    if isDigit d1 && isDigit d2 && isDigit d3 then
      ((thousandsCands rest).map (fun pr => ('.' :: d1 :: d2 :: d3 :: pr.1, pr.2))) ++ [([], l)]
    else [([], l)]
  | l => [([], l)]

/-- Alternatives for `(?:,\d{2})?` at the current position, greedy (present
first). -/
def decCands : List Char → List (List Char × List Char)
  | l@(',' :: d1 :: d2 :: rest) =>
    if isDigit d1 && isDigit d2 then [([',', d1, d2], rest), ([], l)] else [([], l)]
  | l => [([], l)]

/-- All matches of the capture group
`(\d{1,3}(?:\.\d{3})*(?:,\d{2})?)` starting at the current position, in the
regex engine's backtracking order. -/
def numCandidates (l : List Char) : List (List Char × List Char) :=
  (digitCands l).flatMap (fun dc =>
    (thousandsCands dc.2).flatMap (fun tc =>
      (decCands tc.2).map (fun cc => (dc.1 ++ tc.1 ++ cc.1, cc.2))))

/-- The group matched by the number pattern when nothing further constrains
the match: the greedy (first) alternative. -/
def tryNumG (l : List Char) : Option (List Char) :=
  (numCandidates l).head?.map (fun pr => pr.1)

/-- Pattern 1, `R\$\s*(NUM)` (case-insensitive), tried at one position. -/
def tryP1At : List Char → Option (List Char)
  | c :: '$' :: rest => if c == 'r' || c == 'R' then tryNumG (dropWS rest) else none
  | _ => none

/-- Pattern 2, `(NUM)\s*reais`, tried at one position: the first number
alternative followed by `\s*reais` wins. -/
def tryP2At (l : List Char) : Option (List Char) :=
  (numCandidates l).findSome? (fun pr =>
    match stripCI (("reais").toList) (dropWS pr.2) with
    | some _ => some pr.1
    | none => none)

/-- Pattern 3, `por\s*R\$\s*(NUM)`, tried at one position. -/
def tryP3At (l : List Char) : Option (List Char) :=
  match stripCI (("por").toList) l with
  | some r => tryP1At (dropWS r)
  | none => none

/-- Pattern 4, `partir\s+de\s*R\$\s*(NUM)`, tried at one position. -/
def tryP4At (l : List Char) : Option (List Char) :=
  match stripCI (("partir").toList) l with
  | some (c :: rest) =>
    if isWS c then
      match stripCI (("de").toList) (dropWS rest) with
      | some r2 => tryP1At (dropWS r2)
      | none => none
    else none
  | some [] => none
  | none => none

/-- Leftmost match: try the position pattern at every suffix, left to right. -/
def scan (f : List Char → Option (List Char)) : List Char → Option (List Char)
  | [] => none
  | l@(_ :: rest) =>
    match f l with
    | some g => some g
    | none => scan f rest

/-- Split on `'.'` (used to interpret the matched substring after Brazilian
separators have been rewritten, mirroring what `float` accepts). -/
def splitDot : List Char → List (List Char)
  | [] => [[]]
  | c :: rest =>
    if c == '.' then [] :: splitDot rest
    else
      match splitDot rest with
      | [] => [[c]]
      | p :: ps => (c :: p) :: ps

def digitsToNat (l : List Char) : Nat :=
  l.foldl (fun n c => 10 * n + (c.toNat - 48)) 0

/-- Python `float` on the decimal strings reachable here (`[0-9]*`, with at
most one dot, at least one digit); anything else fails. -/
def parseDec (l : List Char) : Option ℚ :=
  match splitDot l with
  | [ip] => if !ip.isEmpty && ip.all isDigit then some ((digitsToNat ip : ℚ)) else none
  | [ip, fp] =>
    if !(ip ++ fp).isEmpty && ip.all isDigit && fp.all isDigit then
      some ((digitsToNat ip : ℚ) + (digitsToNat fp : ℚ) / (10 : ℚ) ^ fp.length)
    else none
  | _ => none

/-- `matches[0].replace('.', '').replace(',', '.')` followed by `float(...)`
(main.py lines 134-137). -/
def parseBR (g : List Char) : Option ℚ :=
  parseDec ((g.filter (fun c => !(c == '.'))).map (fun c => if c == ',' then '.' else c))

/-- One iteration of the pattern loop of `extract_price`: if the pattern has a
match, parse the first match; a `ValueError` (parse failure) falls through to
the next pattern, as does the absence of a match. -/
def tryPat (f : List Char → Option (List Char)) (text : List Char) : Option ℚ :=
  match scan f text with
  | some g => parseBR g
  | none => none

/-- `extract_price` (main.py lines 118-141): try the four patterns in order. -/
def extract_price (text : List Char) : Option ℚ :=
  match tryPat tryP1At text with
  | some v => some v
  | none =>
    match tryPat tryP2At text with
    | some v => some v
    | none =>
      match tryPat tryP3At text with
      | some v => some v
      | none => tryPat tryP4At text

/-- The variant of `extract_price` that tries only the first two patterns
(stated by claim C10 to be extensionally equal to `extract_price`). -/
def extract_price12 (text : List Char) : Option ℚ :=
  match tryPat tryP1At text with
  | some v => some v
  | none => tryPat tryP2At text

/-! ## Price predicate (`check_price_filter`, main.py lines 252-272) -/

/-- The fixed "likely international" keyword list (main.py lines 265-268). -/
def intlWords : List (List Char) :=
  [("internacional").toList, ("europa").toList, ("eua").toList, ("asia").toList,
   ("africa").toList, ("oceania").toList, ("paris").toList, ("london").toList,
   ("new york").toList, ("tokyo").toList, ("madrid").toList, ("rome").toList]

structure PriceConfig where
  enabled : Bool
  domestic_max : ℚ
  international_max : ℚ

/-- Whether the lower-cased combined text mentions an international keyword. -/
def isIntl (full : List Char) : Bool :=
  intlWords.any (fun w => containsSub w (lowerL full))

/-- `check_price_filter` (main.py lines 252-272): pass-through when disabled
or when no price can be extracted; otherwise compare the extracted price with
the applicable threshold. -/
def check_price_filter (cfg : PriceConfig) (title summary : List Char) : Bool :=
  if !cfg.enabled then true
  else
    match extract_price (title ++ ' ' :: summary) with
    | none => true
    | some p =>
      decide (p ≤ (if isIntl (title ++ ' ' :: summary) then cfg.international_max
                   else cfg.domestic_max))

/-! ## Airline predicate config and the top-level gate (`apply_filters`) -/

structure AirlinesConfig where
  enabled : Bool
  includeAirlines : List (List Char)
  excludeAirlines : List (List Char)

structure AdvancedConfig where
  log_rejected_posts : Bool

structure FiltersConfig where
  enabled : Bool
  routes : RoutesConfig
  keywords : KeywordsConfig
  price : PriceConfig
  airlines : AirlinesConfig
  advanced : AdvancedConfig

structure Post where
  title : List Char
  summary : List Char

/-- `apply_filters` (main.py lines 299-328): when filtering is globally
disabled every post is admitted; otherwise the decision is exactly the
keyword predicate (the logging on rejection is telemetry and does not affect
the returned value). -/
def apply_filters (cfg : FiltersConfig) (post : Post) : Bool :=
  if !cfg.enabled then true
  else check_keyword_filter cfg.keywords post.title post.summary

/-! ## Deal scorer (`enhance_post_with_price_analysis` lines 698-706 and
`_rate_deal_quality` lines 746-760 of main.py) -/

inductive DealQuality where
  | RUIM
  | EXCELENTE
  | MUITO_BOA
  | BOA
  | REGULAR
deriving DecidableEq

/-- Round to nearest integer, ties to even (Python `round` on exact values). -/
def roundHE (q : ℚ) : ℤ :=
  if q - ⌊q⌋ < 1 / 2 then ⌊q⌋
  else if 1 / 2 < q - ⌊q⌋ then ⌊q⌋ + 1
  else if ⌊q⌋ % 2 = 0 then ⌊q⌋ else ⌊q⌋ + 1

/-- Python `round(x, 1)`. -/
def round1 (q : ℚ) : ℚ := (roundHE (q * 10) : ℚ) / 10

/-- `_rate_deal_quality` (main.py lines 746-760). -/
def rate_deal_quality (promo_price market_price : ℚ) : DealQuality :=
  if market_price ≤ promo_price then .RUIM
  else if 30 ≤ (market_price - promo_price) / market_price * 100 then .EXCELENTE
  else if 15 ≤ (market_price - promo_price) / market_price * 100 then .MUITO_BOA
  else if 5 ≤ (market_price - promo_price) / market_price * 100 then .BOA
  else .REGULAR

structure DealAnalysis where
  savings_vs_market : ℚ
  discount_percentage : ℚ
  is_good_deal : Bool
  deal_quality : DealQuality

/-- The deal-analysis record built for a post with a promotion price
(main.py lines 698-706). -/
def scoreDeal (promo_price market_price : ℚ) : DealAnalysis :=
  { savings_vs_market := market_price - promo_price
    discount_percentage :=
      if 0 < market_price then round1 ((market_price - promo_price) / market_price * 100)
      else 0
    is_good_deal := decide (50 < market_price - promo_price) && decide (promo_price < 500)
    deal_quality := rate_deal_quality promo_price market_price }

/-! ## Mileage estimator (`estimate_miles_prices`,
src/app/flight_price_apis.py lines 230-281) -/

structure MilesProgram where
  pname : List Char
  rate : ℚ
  min_miles : ℤ
  fees : ℚ

/-- Python `int()` on a rational: truncation toward zero. -/
def pyInt (q : ℚ) : ℤ := Int.tdiv q.num (q.den : ℤ)

structure MilesEstimate where
  estimated_miles : ℤ
  fees_brl : ℚ
  total_cost_brl : ℚ
  savings_vs_cash : ℚ
  worth_using_miles : Bool

/-- The per-program estimate (flight_price_apis.py lines 261-273). -/
def mkEstimate (cash_price : ℚ) (p : MilesProgram) : MilesEstimate :=
  { estimated_miles := max (pyInt (cash_price * p.rate * 1000)) p.min_miles
    fees_brl := p.fees
    total_cost_brl := p.fees
    savings_vs_cash := cash_price - p.fees
    worth_using_miles := decide (50 < cash_price - p.fees) }

/-- The fixed program table (flight_price_apis.py lines 236-257), in source
(dict insertion) order. -/
def smilesProgram : MilesProgram := ⟨("Smiles (GOL)").toList, 0.025, 15000, 120⟩

def tudoAzulProgram : MilesProgram := ⟨("TudoAzul (Azul)").toList, 0.022, 12000, 140⟩

def latamPassProgram : MilesProgram := ⟨("LATAM Pass").toList, 0.020, 17000, 100⟩

def liveloProgram : MilesProgram := ⟨("Livelo").toList, 0.030, 20000, 80⟩

def milesPrograms : List MilesProgram :=
  [smilesProgram, tudoAzulProgram, latamPassProgram, liveloProgram]

/-- The `estimates` dict as an ordered association list. -/
def estsList (cash_price : ℚ) : List (List Char × MilesEstimate) :=
  milesPrograms.map (fun p => (p.pname, mkEstimate cash_price p))

/-- `min(estimates.keys(), key=lambda x: estimates[x]['estimated_miles'])`:
iterate in insertion order, keep the current entry unless a strictly smaller
point count appears. -/
def argminEst : (List Char × MilesEstimate) → List (List Char × MilesEstimate) →
    (List Char × MilesEstimate)
  | best, [] => best
  | best, x :: xs =>
    if x.2.estimated_miles < best.2.estimated_miles then argminEst x xs else argminEst best xs

/-- The `best_miles_option` entry selected by `estimate_miles_prices`. -/
def bestMilesOption (cash_price : ℚ) : List Char × MilesEstimate :=
  match estsList cash_price with
  | [] => (([]), mkEstimate cash_price ⟨([]), 0, 0, 0⟩)
  | e :: es => argminEst e es

/-! ## Concrete configurations used by the claims -/

/-- A keyword section with the filter enabled and one configured mileage
keyword. -/
def c1Cfg : KeywordsConfig := ⟨true, [("milhas").toList]⟩

/-- The trigger exclusions stated by claim C4: no `recife`/`pernambuco`
substring, no space-delimited or hyphen-adjacent `rec`/`pe` token, and none of
the six compound tokens. -/
def c4_excluded (t : List Char) : Bool :=
  !containsSub (("recife").toList) t && !containsSub (("pernambuco").toList) t &&
  !containsSub ((" rec ").toList) (padSp t) && !containsSub ((" pe ").toList) (padSp t) &&
  !containsSub (("-rec").toList) t && !containsSub (("rec-").toList) t &&
  !containsSub (("-pe").toList) t && !containsSub (("pe-").toList) t &&
  !containsSub (("gru-rec").toList) t && !containsSub (("sp-rec").toList) t &&
  !containsSub (("sp-pe").toList) t && !containsSub (("para pe").toList) t &&
  !containsSub (("destino pe").toList) t && !containsSub (("rumo pe").toList) t

/-- A globally disabled filter configuration. -/
def disabledCfg : FiltersConfig :=
  ⟨false, ⟨true, [("x").toList], []⟩, ⟨true, []⟩, ⟨true, 800, 2500⟩, ⟨true, [], []⟩, ⟨false⟩⟩

def postEx : Post := ⟨("Promoção qualquer").toList, []⟩

/-- Route section whose include entry has two separators: `route.split(' -> ')`
yields three parts and the unpacking raises. -/
def c6BadCfg : RoutesConfig := ⟨true, [("a -> b -> c").toList], []⟩

/-- The route section of the claim C6 example: one include route, non-empty
exclude list. -/
def c6Cfg : RoutesConfig := ⟨true, [("São Paulo -> Recife").toList], [("x").toList]⟩

def c7Cfg : PriceConfig := ⟨true, 800, 2500⟩

end PromoAlerts

namespace PromoAlerts

/-! ## Generic list and substring lemmas -/

theorem isPrefixOf_iff_exists (a : List Char) :
    ∀ l, a.isPrefixOf l = true ↔ ∃ q, l = a ++ q := by
  induction a with
  | nil => intro l; simp [List.isPrefixOf]
  | cons c a ih =>
    intro l
    cases l with
    | nil => simp [List.isPrefixOf]
    | cons d l' =>
      simp only [List.isPrefixOf, Bool.and_eq_true, beq_iff_eq, ih l']
      constructor
      · rintro ⟨rfl, q, rfl⟩; exact ⟨q, rfl⟩
      · rintro ⟨q, h⟩
        cases h
        exact ⟨rfl, q, rfl⟩

theorem containsSub_iff (n : List Char) :
    ∀ h, containsSub n h = true ↔ ∃ p q, h = p ++ n ++ q := by
  intro h
  induction h with
  | nil =>
    simp only [containsSub, List.isEmpty_iff]
    constructor
    · rintro rfl; exact ⟨[], [], rfl⟩
    · rintro ⟨p, q, hp⟩
      rcases List.append_eq_nil.mp hp.symm with ⟨h1, h2⟩
      exact (List.append_eq_nil.mp h1).2
  | cons c rest ih =>
    simp only [containsSub, Bool.or_eq_true, isPrefixOf_iff_exists, ih]
    constructor
    · rintro (⟨q, hq⟩ | ⟨p, q, hp⟩)
      · exact ⟨[], q, by simpa using hq⟩
      · exact ⟨c :: p, q, by simp [hp]⟩
    · rintro ⟨p, q, hp⟩
      cases p with
      | nil => exact Or.inl ⟨q, by simpa using hp⟩
      | cons d p' =>
        have hp' : c = d ∧ rest = p' ++ n ++ q := by simpa using hp
        exact Or.inr ⟨p', q, hp'.2⟩

theorem containsSub_trans {a b t : List Char} (hab : containsSub a b = true)
    (hbt : containsSub b t = true) : containsSub a t = true := by
  rcases (containsSub_iff a b).mp hab with ⟨p1, q1, rfl⟩
  rcases (containsSub_iff _ t).mp hbt with ⟨p2, q2, rfl⟩
  exact (containsSub_iff a _).mpr ⟨p2 ++ p1, q1 ++ q2, by simp⟩

/-! ## Lemmas for the normalizer (claim C8) -/

theorem lowerTable_sound : ∀ p ∈ lowerTable, inertChar p.2 = true := by decide

theorem decompTable_sound :
    ∀ p ∈ decompTable, ∀ d ∈ p.2, isMark d = true ∨ inertChar (pyLower d) = true := by decide

theorem inertChar_spec {c : Char} (h : inertChar c = true) :
    decomp c = [c] ∧ isMark c = false ∧ pyLower c = c := by
  simp only [inertChar, Bool.and_eq_true, Bool.not_eq_true', decide_eq_true_eq] at h
  exact ⟨h.1.1, h.1.2, h.2⟩

theorem pyLower_inert {c d : Char} (hd : d ∈ decomp c) (hm : isMark d = false) :
    inertChar (pyLower d) = true := by
  unfold decomp at hd
  cases hf : decompTable.find? (fun p => p.1 == c) with
  | some p =>
    rw [hf] at hd
    rcases decompTable_sound p (List.mem_of_find?_eq_some hf) d hd with h | h
    · rw [h] at hm; cases hm
    · exact h
  | none =>
    rw [hf] at hd
    simp only [List.mem_singleton] at hd
    subst hd
    unfold pyLower
    cases hg : lowerTable.find? (fun p => p.1 == d) with
    | some q => exact lowerTable_sound q (List.mem_of_find?_eq_some hg)
    | none =>
      simp only [inertChar, Bool.and_eq_true, Bool.not_eq_true', decide_eq_true_eq]
      refine ⟨⟨?_, hm⟩, ?_⟩
      · unfold decomp; rw [hf]
      · unfold pyLower; rw [hg]

theorem normPipe_mem_inert {l : List Char} {c : Char} (hc : c ∈ normPipe l) :
    inertChar c = true := by
  unfold normPipe at hc
  rcases List.mem_map.mp hc with ⟨d, hd, rfl⟩
  rcases List.mem_filter.mp hd with ⟨hd2, hmk⟩
  rcases List.mem_flatMap.mp hd2 with ⟨e, _, hde⟩
  exact pyLower_inert hde (by simpa using hmk)

theorem flatMap_id_of_mem {l : List Char} (h : ∀ c ∈ l, decomp c = [c]) :
    l.flatMap decomp = l := by
  induction l with
  | nil => rfl
  | cons c cs ih =>
    simp only [List.flatMap_cons, h c (List.mem_cons_self c cs)]
    simpa using ih (fun x hx => h x (List.mem_cons_of_mem _ hx))

theorem map_id_of_mem {f : Char → Char} {l : List Char} (h : ∀ c ∈ l, f c = c) :
    l.map f = l := by
  induction l with
  | nil => rfl
  | cons c cs ih =>
    simp only [List.map_cons, h c (List.mem_cons_self c cs)]
    rw [ih (fun x hx => h x (List.mem_cons_of_mem _ hx))]

theorem normPipe_fixed {m : List Char} (h : ∀ c ∈ m, inertChar c = true) :
    normPipe m = m := by
  unfold normPipe
  rw [flatMap_id_of_mem (fun c hc => (inertChar_spec (h c hc)).1)]
  rw [List.filter_eq_self.mpr (fun c hc => by
    simp [(inertChar_spec (h c hc)).2.1])]
  exact map_id_of_mem (fun c hc => (inertChar_spec (h c hc)).2.2)

theorem trimL_trimL (l : List Char) : trimL (trimL l) = trimL l := by
  induction l with
  | nil => rfl
  | cons c cs ih =>
    unfold trimL at ih ⊢
    cases hw : isWS c with
    | true => simpa [List.dropWhile_cons, hw] using ih
    | false => simp [List.dropWhile_cons, hw]

theorem trimL_cons_false {c : Char} {cs : List Char} (hc : isWS c = false) :
    trimL (c :: cs) = c :: cs := by
  simp [trimL, List.dropWhile_cons, hc]

theorem trimL_head_false {l : List Char} {c : Char} {cs : List Char}
    (h : trimL l = c :: cs) : isWS c = false := by
  cases hw : isWS c with
  | false => rfl
  | true =>
    exfalso
    induction l with
    | nil => simp [trimL] at h
    | cons d l' ih =>
      unfold trimL at h
      cases hd : isWS d with
      | true =>
        rw [List.dropWhile_cons_of_pos hd] at h
        exact ih h
      | false =>
        rw [List.dropWhile_cons_of_neg (by simp [hd])] at h
        cases h
        rw [hd] at hw
        cases hw

theorem mem_trimL {l : List Char} {c : Char} (h : c ∈ trimL l) : c ∈ l := by
  have e := List.takeWhile_append_dropWhile isWS l
  rw [← e]
  exact List.mem_append_right _ h

theorem mem_stripL {l : List Char} {c : Char} (h : c ∈ stripL l) : c ∈ l := by
  unfold stripL trimR at h
  rw [List.mem_reverse] at h
  have h2 := mem_trimL h
  rw [List.mem_reverse] at h2
  exact mem_trimL h2

theorem stripL_idem (l : List Char) : stripL (stripL l) = stripL l := by
  unfold stripL trimR
  set a := trimL l with ha
  set b := trimL a.reverse with hb
  have hta : trimL a = a := by rw [ha]; exact trimL_trimL l
  have htb : trimL b = b := by rw [hb]; exact trimL_trimL a.reverse
  have h1 : trimL b.reverse = b.reverse := by
    cases hbr : b.reverse with
    | nil => rfl
    | cons c cs =>
      refine trimL_cons_false ?_
      have hbne : b ≠ [] := by
        intro hc; rw [hc] at hbr; simp at hbr
      have hane : a ≠ [] := by
        intro hc
        apply hbne
        rw [hb, hc]; rfl
      -- the head of b.reverse is the last element of b, which is the last
      -- element of a.reverse, which is the head of a, a non-whitespace char
      have e1 : (b.reverse).head? = b.getLast? := List.head?_reverse b
      have e2 : a.reverse = a.reverse.takeWhile isWS ++ b := by
        rw [hb]; exact (List.takeWhile_append_dropWhile isWS a.reverse).symm
      have e3 : b.getLast? = (a.reverse).getLast? := by
        rw [e2]; exact (List.getLast?_append_of_ne_nil _ hbne).symm
      have e4 : (a.reverse).getLast? = a.head? := List.getLast?_reverse a
      obtain ⟨c0, cs0, hc0⟩ := List.exists_cons_of_ne_nil hane
      have hcw : isWS c0 = false := by
        have hl : trimL l = c0 :: cs0 := by rw [← ha]; exact hc0
        exact trimL_head_false hl
      have : c = c0 := by
        have : (b.reverse).head? = a.head? := by rw [e1, e3, e4]
        rw [hbr, hc0] at this
        simpa using this
      rw [this]; exact hcw
  rw [h1, List.reverse_reverse, htb]

theorem normL_idem (l : List Char) : normL (normL l) = normL l := by
  unfold normL
  rw [normPipe_fixed (fun c hc => normPipe_mem_inert (mem_stripL hc))]
  exact stripL_idem _

/-- C8: the text normalizer is idempotent, and empty or null input yields the
empty string. -/
theorem claim_C8 :
    normalize_textOpt none = [] ∧ normalize_text [] = [] ∧
      ∀ s : List Char, normalize_text (normalize_text s) = normalize_text s := by
  refine ⟨rfl, rfl, fun s => ?_⟩
  unfold normalize_text
  by_cases hs : s.isEmpty
  · simp [hs]
  · simp only [hs, if_false]
    by_cases hn : (normL s).isEmpty
    · simp [hn, List.isEmpty_iff.mp hn]
    · simp [hn, normL_idem]

/-! ## Claims C1 and C4: the keyword predicate -/

/-- C1: the keyword predicate is a conjunction — with the section enabled it
admits a post iff the normalized title+summary text has a Recife/PE indicator
AND (a flight/travel term OR a configured mileage keyword); the three concrete
titles behave as stated. -/
theorem claim_C1 :
    (∀ (cfg : KeywordsConfig) (title summary : List Char), cfg.enabled = true →
      (check_keyword_filter cfg title summary = true ↔
        hasRecife (ntextOf title summary) = true ∧
          (hasPassagemTerms (ntextOf title summary) = true ∨
            hasMilesTerms cfg.miles_keywords (ntextOf title summary) = true))) ∧
    check_keyword_filter c1Cfg (("Promoção de passagem para Recife").toList) [] = true ∧
    check_keyword_filter c1Cfg (("Promoção de passagem para Salvador").toList) [] = false ∧
    check_keyword_filter c1Cfg (("Recife é linda").toList) [] = false := by
  refine ⟨?_, by decide, by decide, by decide⟩
  intro cfg title summary h
  simp [check_keyword_filter, h, Bool.and_eq_true, Bool.or_eq_true]

theorem claim_C1_witness :
    check_keyword_filter c1Cfg (("Promoção de passagem para Recife").toList) [] = true ↔
      hasRecife (ntextOf (("Promoção de passagem para Recife").toList) []) = true ∧
        (hasPassagemTerms (ntextOf (("Promoção de passagem para Recife").toList) []) = true ∨
          hasMilesTerms c1Cfg.miles_keywords
            (ntextOf (("Promoção de passagem para Recife").toList) []) = true) :=
  claim_C1.1 c1Cfg (("Promoção de passagem para Recife").toList) [] rfl

/-- C4, counterexample: the normalized text `"oferec."` satisfies every
exclusion stated by the claim (no `recife`/`pernambuco`, no space-delimited or
hyphen-adjacent `rec`/`pe` token, none of the six compound tokens), yet the
code's Recife indicator fires, through its additional `'rec.' in text` clause
matching `rec` inside the longer word `oferec.`. -/
theorem claim_C4_counterexample :
    c4_excluded (ntextOf (("oferec.").toList) []) = true ∧
      hasRecife (ntextOf (("oferec.").toList) []) = true :=
  ⟨by decide, by decide⟩

/-- C4, amended: with the additional exclusion that the normalized text does
not contain `"rec."` (the code also matches `rec` followed by a period, with
any left context), the listed triggers are exhaustive: a post excluded from
all of them has a false Recife indicator. -/
theorem claim_C4_amended :
    ∀ title summary : List Char,
      c4_excluded (ntextOf title summary) = true →
      containsSub (("rec.").toList) (ntextOf title summary) = false →
      hasRecife (ntextOf title summary) = false := by
  intro title summary hx hdot
  set t := ntextOf title summary with ht
  simp only [c4_excluded, Bool.and_eq_true, Bool.not_eq_true'] at hx
  obtain ⟨⟨⟨⟨⟨⟨⟨⟨⟨⟨⟨⟨⟨h1, h2⟩, h3⟩, h4⟩, h5⟩, h6⟩, h7⟩, h8⟩, h9⟩, h10⟩, h11⟩,
    h12⟩, h13⟩, h14⟩ := hx
  by_contra hcon
  have hr : hasRecife t = true := by
    cases hR : hasRecife t
    · exact absurd hR hcon
    · rfl
  have e1 : normalize_text (("recife").toList) = ("recife").toList := by decide
  have e2 : normalize_text (("pernambuco").toList) = ("pernambuco").toList := by decide
  simp only [hasRecife, Bool.or_eq_true] at hr
  rcases hr with
    ((((((((((((hc | hc) | hc) | hc) | hc) | hc) | hc) | hc) | hc) | hc) | hc) | hc) | hc)
  · rw [e1] at hc; exact Bool.noConfusion (hc.symm.trans h1)
  · rw [e2] at hc; exact Bool.noConfusion (hc.symm.trans h2)
  · exact Bool.noConfusion (hc.symm.trans h3)
  · have hm : containsSub (("-rec").toList) t = true :=
      containsSub_trans (by decide) hc
    exact Bool.noConfusion (hm.symm.trans h5)
  · have hm : containsSub (("rec-").toList) t = true :=
      containsSub_trans (by decide) hc
    exact Bool.noConfusion (hm.symm.trans h6)
  · exact Bool.noConfusion (hc.symm.trans hdot)
  · exact Bool.noConfusion (hc.symm.trans h9)
  · exact Bool.noConfusion (hc.symm.trans h10)
  · exact Bool.noConfusion (hc.symm.trans h4)
  · exact Bool.noConfusion (hc.symm.trans h11)
  · have hm : containsSub ((" pe ").toList) (padSp t) = true :=
      containsSub_trans (by decide) hc
    exact Bool.noConfusion (hm.symm.trans h4)
  · exact Bool.noConfusion (hc.symm.trans h13)
  · exact Bool.noConfusion (hc.symm.trans h14)

theorem claim_C4_witness :
    c4_excluded (ntextOf (("passagem barata para salvador").toList) []) = true ∧
      hasRecife (ntextOf (("passagem barata para salvador").toList) []) = false :=
  ⟨by decide, claim_C4_amended (("passagem barata para salvador").toList) [] (by decide)
    (by decide)⟩

/-! ## Claim C2: the top-level admit decision -/

/-- C2: `apply_filters` admits everything when filtering is globally disabled,
and otherwise equals the keyword predicate; the route, price and airline
sections of the configuration never influence the decision. -/
theorem claim_C2 :
    (∀ (cfg : FiltersConfig) (post : Post), cfg.enabled = false →
      apply_filters cfg post = true) ∧
    (∀ (cfg : FiltersConfig) (post : Post), cfg.enabled = true →
      apply_filters cfg post = check_keyword_filter cfg.keywords post.title post.summary) ∧
    (∀ (cfgA cfgB : FiltersConfig) (post : Post), cfgA.enabled = cfgB.enabled →
      cfgA.keywords = cfgB.keywords → apply_filters cfgA post = apply_filters cfgB post) := by
  refine ⟨?_, ?_, ?_⟩
  · intro cfg post h; simp [apply_filters, h]
  · intro cfg post h; simp [apply_filters, h]
  · intro cfgA cfgB post he hk; simp [apply_filters, he, hk]

theorem claim_C2_witness : apply_filters disabledCfg postEx = true :=
  claim_C2.1 disabledCfg postEx rfl

/-! ## Claim C6: the route predicate's include whitelist -/

theorem routeEntryCheck_wf {nt r : List Char} (h : wellFormedRoute r = true) :
    routeEntryCheck nt r = some (entryMatches nt r) := by
  unfold wellFormedRoute at h
  unfold routeEntryCheck entryMatches
  cases hc : containsSub arrowSep r with
  | false => simp [hc]
  | true =>
    simp only [hc, Bool.true_or, if_true]
    rw [hc] at h
    simp only [Bool.not_true, Bool.false_or, beq_iff_eq] at h
    cases hs : splitArrow r with
    | nil => rw [hs] at h; simp at h
    | cons a tl =>
      cases tl with
      | nil => rw [hs] at h; simp at h
      | cons b tl2 =>
        cases tl2 with
        | nil => rfl
        | cons c tl3 => rw [hs] at h; simp at h

theorem loopIncl_eq_any {nt : List Char} :
    ∀ rs : List (List Char), (∀ r ∈ rs, wellFormedRoute r = true) →
      loopIncl nt rs = some (rs.any (entryMatches nt)) := by
  intro rs
  induction rs with
  | nil => intro _; rfl
  | cons r rs ih =>
    intro h
    have hr := @routeEntryCheck_wf nt r (h r (List.mem_cons_self r rs))
    unfold loopIncl
    rw [hr]
    cases hm : entryMatches nt r with
    | true => simp [List.any_cons, hm]
    | false =>
      simp only [List.any_cons, hm, Bool.false_or]
      exact ih (fun x hx => h x (List.mem_cons_of_mem _ hx))

/-- C6, counterexample: on a route config whose single include entry contains
the separator twice, the Python predicate raises `ValueError` from the tuple
unpacking (modelled as `none`) instead of returning the boolean the claim
asserts for every config with a non-empty include list. -/
theorem claim_C6_counterexample :
    c6BadCfg.enabled = true ∧ c6BadCfg.includeRoutes ≠ [] ∧
      check_route_filter c6BadCfg (("a b c").toList) [] = none :=
  ⟨rfl, by decide, by decide⟩

/-- C6, amended: restricted to include entries on which `split(' -> ')`
unpacks (at most one separator occurrence), a non-empty include list makes the
predicate return exactly "some entry matches", and the exclude list is never
consulted. -/
theorem claim_C6_amended :
    ∀ (cfg : RoutesConfig) (title summary : List Char),
      cfg.enabled = true → cfg.includeRoutes ≠ [] →
      (∀ r ∈ cfg.includeRoutes, wellFormedRoute r = true) →
      check_route_filter cfg title summary =
          some (cfg.includeRoutes.any (entryMatches (ntextOf title summary))) ∧
        ∀ ex : List (List Char),
          check_route_filter { cfg with excludeRoutes := ex } title summary =
            check_route_filter cfg title summary := by
  intro cfg title summary he hne hwf
  have hie : cfg.includeRoutes.isEmpty = false := by
    cases hi : cfg.includeRoutes with
    | nil => exact absurd hi hne
    | cons a tl => rfl
  constructor
  · unfold check_route_filter
    rw [he, hie]
    simp only [Bool.not_true, Bool.not_false, if_false, if_true]
    exact loopIncl_eq_any cfg.includeRoutes hwf
  · intro ex
    unfold check_route_filter
    rw [he, hie]
    simp only [Bool.not_true, Bool.not_false, if_false, if_true]

theorem claim_C6_witness :
    check_route_filter c6Cfg (("promoção incrível para Recife").toList) [] = some false := by
  have h := (claim_C6_amended c6Cfg (("promoção incrível para Recife").toList) [] rfl
    (by decide) (by decide)).1
  rw [h]
  decide

/-! ## Lemmas about the price-extraction scanners (claims C5, C10, C7) -/

theorem isDigit_beq_dot {c : Char} (h : isDigit c = true) : (c == '.') = false := by
  cases hb : (c == '.') with
  | false => rfl
  | true =>
    have : c = '.' := by simpa using hb
    rw [this] at h
    exact absurd h (by decide)

theorem isDigit_beq_comma {c : Char} (h : isDigit c = true) : (c == ',') = false := by
  cases hb : (c == ',') with
  | false => rfl
  | true =>
    have : c = ',' := by simpa using hb
    rw [this] at h
    exact absurd h (by decide)

theorem scan_none_iff (f : List Char → Option (List Char)) :
    ∀ l, scan f l = none ↔ ∀ p s : List Char, l = p ++ s → s ≠ [] → f s = none := by
  intro l
  induction l with
  | nil =>
    constructor
    · intro _ p s hps hs
      rcases (List.append_eq_nil.mp hps.symm) with ⟨_, rfl⟩
      exact absurd rfl hs
    · intro _; rfl
  | cons c rest ih =>
    constructor
    · intro h p s hps hs
      unfold scan at h
      cases hf : f (c :: rest) with
      | some g => rw [hf] at h; cases h
      | none =>
        rw [hf] at h
        cases p with
        | nil =>
          have hs2 : s = c :: rest := by simpa using hps.symm
          rw [hs2]; exact hf
        | cons d p' =>
          have hps2 : c = d ∧ rest = p' ++ s := by simpa using hps
          exact (ih.mp h) p' s hps2.2 hs
    · intro h
      unfold scan
      cases hf : f (c :: rest) with
      | some g =>
        have := h [] (c :: rest) rfl (by simp)
        rw [hf] at this; cases this
      | none =>
        exact ih.mpr (fun p s hps hs => h (c :: p) s (by simp [hps]) hs)

theorem scan_eq_some {f : List Char → Option (List Char)} {g : List Char} :
    ∀ l, scan f l = some g → ∃ p s, l = p ++ s ∧ s ≠ [] ∧ f s = some g := by
  intro l
  induction l with
  | nil => intro h; cases h
  | cons c rest ih =>
    intro h
    unfold scan at h
    cases hf : f (c :: rest) with
    | some g2 =>
      rw [hf] at h
      injection h with h2
      subst h2
      exact ⟨[], c :: rest, rfl, by simp, hf⟩
    | none =>
      rw [hf] at h
      rcases ih h with ⟨p, s, hps, hs, hfs⟩
      exact ⟨c :: p, s, by simp [hps], hs, hfs⟩

theorem stripCI_some : ∀ (pat l r : List Char), stripCI pat l = some r → ∃ p, l = p ++ r := by
  intro pat
  induction pat with
  | nil =>
    intro l r h
    injection h with h2
    exact ⟨[], by simp [h2]⟩
  | cons pc pcs ih =>
    intro l r h
    cases l with
    | nil => cases h
    | cons c cs =>
      unfold stripCI at h
      by_cases hc : (pyLower c == pc) = true
      · rw [if_pos hc] at h
        rcases ih cs r h with ⟨p, hp⟩
        exact ⟨c :: p, by simp [hp]⟩
      · rw [if_neg hc] at h; cases h

theorem dropWS_suffix (l : List Char) : ∃ p, l = p ++ dropWS l :=
  ⟨l.takeWhile isWS, (List.takeWhile_append_dropWhile isWS l).symm⟩

theorem digitCands_mem {l : List Char} {pr : List Char × List Char}
    (h : pr ∈ digitCands l) : pr.1 ≠ [] ∧ ∀ c ∈ pr.1, isDigit c = true := by
  unfold digitCands at h
  rcases List.mem_map.mp h with ⟨i, hi, rfl⟩
  rw [List.mem_range] at hi
  constructor
  · intro hc
    have hlen := congrArg List.length hc
    simp only [List.length_take, List.length_nil] at hlen hi
    omega
  · intro c hc
    exact List.mem_takeWhile_imp (List.take_subset _ _ (List.take_subset _ _ hc))

theorem thousandsCands_mem :
    ∀ (m : List Char) (pr : List Char × List Char), pr ∈ thousandsCands m →
      ∀ c ∈ pr.1, isDigit c = true ∨ c = '.' := by
  intro m
  induction m using thousandsCands.induct with
  | case1 d1 d2 d3 rest hdig ih =>
    intro pr hpr c hc
    simp only [thousandsCands, if_pos hdig] at hpr
    rcases List.mem_append.mp hpr with hpr | hpr
    · rcases List.mem_map.mp hpr with ⟨pr2, hpr2, rfl⟩
      simp only [List.mem_cons] at hc
      simp only [Bool.and_eq_true] at hdig
      rcases hc with rfl | rfl | rfl | rfl | hc
      · exact Or.inr rfl
      · exact Or.inl hdig.1.1
      · exact Or.inl hdig.1.2
      · exact Or.inl hdig.2
      · exact ih pr2 hpr2 c hc
    · simp only [List.mem_singleton] at hpr
      rw [hpr] at hc
      simp at hc
  | case2 d1 d2 d3 rest hdig =>
    intro pr hpr c hc
    simp only [thousandsCands, if_neg hdig] at hpr
    simp only [List.mem_singleton] at hpr
    rw [hpr] at hc
    simp at hc
  | case3 l hshape =>
    intro pr hpr c hc
    unfold thousandsCands at hpr
    split at hpr
    · exact (hshape _ _ _ _ rfl).elim
    · simp only [List.mem_singleton] at hpr
      rw [hpr] at hc
      simp at hc

theorem decCands_mem {m : List Char} {pr : List Char × List Char} (h : pr ∈ decCands m) :
    pr.1 = [] ∨ ∃ d1 d2, isDigit d1 = true ∧ isDigit d2 = true ∧ pr.1 = [',', d1, d2] := by
  unfold decCands at h
  split at h
  · rename_i d1 d2 rest
    split_ifs at h with hd
    · simp only [Bool.and_eq_true] at hd
      rcases List.mem_cons.mp h with rfl | h
      · exact Or.inr ⟨d1, d2, hd.1, hd.2, rfl⟩
      · simp only [List.mem_singleton] at h
        rw [h]
        exact Or.inl rfl
    · simp only [List.mem_singleton] at h
      rw [h]
      exact Or.inl rfl
  · simp only [List.mem_singleton] at h
    rw [h]
    exact Or.inl rfl

theorem splitDot_digit_cons {c : Char} (hc : (c == '.') = false) {rest p : List Char}
    {ps : List (List Char)} (h : splitDot rest = p :: ps) :
    splitDot (c :: rest) = (c :: p) :: ps := by
  unfold splitDot
  rw [hc]
  simp only [Bool.false_eq_true, if_false]
  rw [h]

theorem splitDot_all_digits {a : List Char} (ha : ∀ c ∈ a, isDigit c = true) :
    ∀ {b p : List Char} {ps : List (List Char)}, splitDot b = p :: ps →
      splitDot (a ++ b) = (a ++ p) :: ps := by
  induction a with
  | nil => intro b p ps h; simpa using h
  | cons c a' ih =>
    intro b p ps h
    have hc : (c == '.') = false := isDigit_beq_dot (ha c (List.mem_cons_self c a'))
    have h2 := ih (fun x hx => ha x (List.mem_cons_of_mem _ hx)) h
    rw [List.cons_append]
    exact splitDot_digit_cons hc h2

theorem parseDec_int {a : List Char} (h1 : a ≠ []) (h2 : ∀ c ∈ a, isDigit c = true) :
    ∃ v, parseDec a = some v := by
  have hs : splitDot a = [a] := by
    have h0 : splitDot ([] : List Char) = [] :: [] := rfl
    have := splitDot_all_digits h2 h0
    simpa using this
  refine ⟨(digitsToNat a : ℚ), ?_⟩
  unfold parseDec
  rw [hs]
  have hne : a.isEmpty = false := by
    cases a with
    | nil => exact absurd rfl h1
    | cons x xs => rfl
  have hall : a.all isDigit = true := List.all_eq_true.mpr h2
  show (if (!a.isEmpty && a.all isDigit) = true then some ((digitsToNat a : ℚ)) else none) =
    some ((digitsToNat a : ℚ))
  rw [hne, hall]
  rfl

theorem parseDec_frac {a : List Char} {d1 d2 : Char} (h2 : ∀ c ∈ a, isDigit c = true)
    (hd1 : isDigit d1 = true) (hd2 : isDigit d2 = true) :
    ∃ v, parseDec (a ++ ['.', d1, d2]) = some v := by
  have h12 : splitDot [d1, d2] = [[d1, d2]] := by
    have h0 : splitDot ([] : List Char) = [] :: [] := rfl
    have := @splitDot_all_digits [d1, d2]
      (by intro c hc; rcases List.mem_cons.mp hc with rfl | hc
          · exact hd1
          · simp only [List.mem_singleton] at hc; rw [hc]; exact hd2) [] [] [] h0
    simpa using this
  have hdot : splitDot ['.', d1, d2] = [] :: splitDot [d1, d2] := rfl
  rw [h12] at hdot
  have hs : splitDot (a ++ ['.', d1, d2]) = [a, [d1, d2]] := by
    have := splitDot_all_digits h2 hdot
    simpa using this
  refine ⟨(digitsToNat a : ℚ) + (digitsToNat [d1, d2] : ℚ) / (10 : ℚ) ^ ([d1, d2]).length, ?_⟩
  unfold parseDec
  rw [hs]
  have hne : (a ++ [d1, d2]).isEmpty = false := by
    cases a with
    | nil => rfl
    | cons x xs => rfl
  have hall : a.all isDigit = true := List.all_eq_true.mpr h2
  have hall2 : ([d1, d2]).all isDigit = true := by simp [hd1, hd2]
  show (if (!(a ++ [d1, d2]).isEmpty && a.all isDigit && ([d1, d2]).all isDigit) = true then
      some ((digitsToNat a : ℚ) + (digitsToNat [d1, d2] : ℚ) / (10 : ℚ) ^ ([d1, d2]).length)
    else none) =
    some ((digitsToNat a : ℚ) + (digitsToNat [d1, d2] : ℚ) / (10 : ℚ) ^ ([d1, d2]).length)
  rw [hne, hall, hall2]
  rfl

theorem parseBR_of_parts {ds ts cs : List Char}
    (hds : ds ≠ []) (hds2 : ∀ c ∈ ds, isDigit c = true)
    (hts : ∀ c ∈ ts, isDigit c = true ∨ c = '.')
    (hcs : cs = [] ∨ ∃ d1 d2, isDigit d1 = true ∧ isDigit d2 = true ∧ cs = [',', d1, d2]) :
    ∃ v, parseBR (ds ++ ts ++ cs) = some v := by
  unfold parseBR
  rw [List.filter_append, List.filter_append, List.map_append, List.map_append]
  have eds : ds.filter (fun c => !(c == '.')) = ds :=
    List.filter_eq_self.mpr (fun c hc => by rw [isDigit_beq_dot (hds2 c hc)]; rfl)
  have eds2 : ds.map (fun c => if c == ',' then '.' else c) = ds :=
    map_id_of_mem (fun c hc => by rw [isDigit_beq_comma (hds2 c hc)]; rfl)
  rw [eds, eds2]
  set ts2 := ts.filter (fun c => !(c == '.')) with hts2
  have hts2d : ∀ c ∈ ts2, isDigit c = true := by
    intro c hc
    rw [hts2] at hc
    rcases List.mem_filter.mp hc with ⟨hmem, hkeep⟩
    rcases hts c hmem with h | h
    · exact h
    · rw [h] at hkeep; simp at hkeep
  have ets : ts2.map (fun c => if c == ',' then '.' else c) = ts2 :=
    map_id_of_mem (fun c hc => by rw [isDigit_beq_comma (hts2d c hc)]; rfl)
  rw [ets]
  have hdsts : ds ++ ts2 ≠ [] := by
    intro hc
    exact hds (List.append_eq_nil.mp hc).1
  have hdsts2 : ∀ c ∈ ds ++ ts2, isDigit c = true := by
    intro c hc
    rcases List.mem_append.mp hc with h | h
    · exact hds2 c h
    · exact hts2d c h
  rcases hcs with rfl | ⟨d1, d2, hd1, hd2, rfl⟩
  · simp only [List.filter_nil, List.map_nil, List.append_nil]
    exact parseDec_int hdsts hdsts2
  · have ecs : (([',', d1, d2]).filter (fun c => !(c == '.'))).map
        (fun c => if c == ',' then '.' else c) = ['.', d1, d2] := by
      have e1 : ((',' : Char) == '.') = false := by decide
      have e2 : ((',' : Char) == ',') = true := by decide
      simp only [List.filter_cons, List.filter_nil, e1, isDigit_beq_dot hd1,
        isDigit_beq_dot hd2, Bool.not_false, if_true, List.map_cons, List.map_nil, e2,
        isDigit_beq_comma hd1, isDigit_beq_comma hd2, Bool.false_eq_true, if_false]
    rw [ecs, List.append_assoc]
    rw [← List.append_assoc]
    exact parseDec_frac hdsts2 hd1 hd2

theorem numCandidates_parses {l : List Char} {pr : List Char × List Char}
    (h : pr ∈ numCandidates l) : ∃ v, parseBR pr.1 = some v := by
  unfold numCandidates at h
  rcases List.mem_flatMap.mp h with ⟨dc, hdc, h2⟩
  rcases List.mem_flatMap.mp h2 with ⟨tc, htc, h3⟩
  rcases List.mem_map.mp h3 with ⟨cc, hcc, rfl⟩
  obtain ⟨hne, hdig⟩ := digitCands_mem hdc
  exact parseBR_of_parts hne hdig (thousandsCands_mem _ _ htc) (decCands_mem hcc)

theorem tryNumG_parses {l g : List Char} (h : tryNumG l = some g) :
    ∃ v, parseBR g = some v := by
  unfold tryNumG at h
  cases hn : numCandidates l with
  | nil => rw [hn] at h; cases h
  | cons x xs =>
    rw [hn] at h
    simp only [List.head?_cons, Option.map_some] at h
    injection h with h2
    rw [← h2]
    exact numCandidates_parses (hn ▸ List.mem_cons_self x xs)

theorem tryP1At_parses {s g : List Char} (h : tryP1At s = some g) :
    ∃ v, parseBR g = some v := by
  unfold tryP1At at h
  split at h
  · split_ifs at h with hc
    exact tryNumG_parses h
  · cases h

theorem tryP1At_nil : tryP1At [] = none := rfl

theorem tryP3At_via_P1 {s g : List Char} (h : tryP3At s = some g) :
    ∃ p s2, s = p ++ s2 ∧ s2 ≠ [] ∧ tryP1At s2 = some g := by
  unfold tryP3At at h
  split at h
  · rename_i r hs
    rcases stripCI_some _ _ _ hs with ⟨p1, hp1⟩
    rcases dropWS_suffix r with ⟨p2, hp2⟩
    refine ⟨p1 ++ p2, dropWS r, ?_, ?_, h⟩
    · rw [hp1, List.append_assoc, ← hp2]
    · intro hc
      rw [hc, tryP1At_nil] at h
      cases h
  · cases h

theorem tryP4At_via_P1 {s g : List Char} (h : tryP4At s = some g) :
    ∃ p s2, s = p ++ s2 ∧ s2 ≠ [] ∧ tryP1At s2 = some g := by
  unfold tryP4At at h
  split at h
  · rename_i c rest hs
    split_ifs at h with hw
    · split at h
      · rename_i r2 hs2
        set s2 := dropWS r2 with hs2def
        rcases stripCI_some _ _ _ hs with ⟨p1, hp1⟩
        rcases dropWS_suffix rest with ⟨p2, hp2⟩
        rcases stripCI_some _ _ _ hs2 with ⟨p3, hp3⟩
        rcases dropWS_suffix r2 with ⟨p4, hp4⟩
        refine ⟨p1 ++ c :: (p2 ++ p3 ++ p4), s2, ?_, ?_, h⟩
        · rw [hp1, hp2, hp3, hp4]
          simp [List.append_assoc]
        · intro hc
          rw [hc, tryP1At_nil] at h
          cases h
      · cases h
  · cases h
  · cases h

/-! ## Claims C5 and C10: the price extractor -/

/-- C5: the price extractor is total and returns the stated values on the
three example texts; for every input it returns `none` exactly when each of
the four patterns either has no match or its first match fails numeric
parsing — it never raises. -/
theorem claim_C5 :
    extract_price (("R$ 1.234,56").toList) = some ((123456 : ℚ) / 100) ∧
    extract_price (("a partir de R$ 234,56").toList) = some ((23456 : ℚ) / 100) ∧
    extract_price (("no price here").toList) = none ∧
    ∀ text : List Char, extract_price text = none ↔
      tryPat tryP1At text = none ∧ tryPat tryP2At text = none ∧
        tryPat tryP3At text = none ∧ tryPat tryP4At text = none := by
  refine ⟨by with_unfolding_all rfl, by with_unfolding_all rfl, by decide, ?_⟩
  intro text
  unfold extract_price
  cases h1 : tryPat tryP1At text with
  | some v => simp
  | none =>
    cases h2 : tryPat tryP2At text with
    | some v => simp
    | none =>
      cases h3 : tryPat tryP3At text with
      | some v => simp
      | none => simp

/-- C10: the third and fourth extraction patterns are unreachable — the
extractor returns the same result as the variant trying only the first two
patterns, because any text matched by `por\s*R\$\s*NUM` or
`partir\s+de\s*R\$\s*NUM` contains a match of `R\$\s*NUM`, which is tried
first, and a matched group never fails numeric parsing. -/
theorem claim_C10 : ∀ text : List Char, extract_price text = extract_price12 text := by
  intro text
  unfold extract_price extract_price12
  cases h1 : tryPat tryP1At text with
  | some v => rfl
  | none =>
    cases h2 : tryPat tryP2At text with
    | some v => rfl
    | none =>
      have hs1 : scan tryP1At text = none := by
        cases hs : scan tryP1At text with
        | none => rfl
        | some g =>
          exfalso
          rcases scan_eq_some text hs with ⟨p, s, hps, hsne, hf⟩
          rcases tryP1At_parses hf with ⟨v, hv⟩
          unfold tryPat at h1
          rw [hs] at h1
          change parseBR g = none at h1
          rw [hv] at h1
          cases h1
      have h3 : tryPat tryP3At text = none := by
        unfold tryPat
        cases hs : scan tryP3At text with
        | none => rfl
        | some g =>
          exfalso
          rcases scan_eq_some text hs with ⟨p, s, hps, hsne, hf⟩
          rcases tryP3At_via_P1 hf with ⟨p2, s2, hseq, hs2ne, hf1⟩
          have hnone := (scan_none_iff tryP1At text).mp hs1 (p ++ p2) s2
            (by rw [hps, hseq, List.append_assoc]) hs2ne
          rw [hf1] at hnone
          cases hnone
      have h4 : tryPat tryP4At text = none := by
        unfold tryPat
        cases hs : scan tryP4At text with
        | none => rfl
        | some g =>
          exfalso
          rcases scan_eq_some text hs with ⟨p, s, hps, hsne, hf⟩
          rcases tryP4At_via_P1 hf with ⟨p2, s2, hseq, hs2ne, hf1⟩
          have hnone := (scan_none_iff tryP1At text).mp hs1 (p ++ p2) s2
            (by rw [hps, hseq, List.append_assoc]) hs2ne
          rw [hf1] at hnone
          cases hnone
      rw [h3]
      exact h4

/-! ## Claim C7: the price predicate -/

/-- C7: with the price section enabled, the predicate is fail-open — no
extractable price admits the post — and otherwise admits iff the extracted
price is at most the international or domestic threshold, chosen by the
international-keyword heuristic; with a domestic threshold of 800, extracted
price 799 passes and 801 fails. -/
theorem claim_C7 :
    (∀ (cfg : PriceConfig) (title summary : List Char), cfg.enabled = true →
      extract_price (title ++ ' ' :: summary) = none →
      check_price_filter cfg title summary = true) ∧
    (∀ (cfg : PriceConfig) (title summary : List Char) (p : ℚ), cfg.enabled = true →
      extract_price (title ++ ' ' :: summary) = some p →
      (check_price_filter cfg title summary = true ↔
        p ≤ (if isIntl (title ++ ' ' :: summary) then cfg.international_max
             else cfg.domestic_max))) ∧
    check_price_filter c7Cfg (("voo por R$ 799,00").toList) [] = true ∧
    check_price_filter c7Cfg (("voo por R$ 801,00").toList) [] = false := by
  refine ⟨?_, ?_, by with_unfolding_all rfl, by with_unfolding_all rfl⟩
  · intro cfg t s he hn
    simp [check_price_filter, he, hn]
  · intro cfg t s p he hp
    simp [check_price_filter, he, hp]

theorem claim_C7_witness :
    check_price_filter c7Cfg (("sem preco aqui").toList) [] = true ∧
      (check_price_filter c7Cfg (("voo por R$ 799,00").toList) [] = true ↔ (799 : ℚ) ≤ 800) := by
  constructor
  · exact claim_C7.1 c7Cfg (("sem preco aqui").toList) [] rfl (by decide)
  · have h := claim_C7.2.1 c7Cfg (("voo por R$ 799,00").toList) [] 799 rfl
      (by with_unfolding_all rfl)
    have hi : isIntl ((("voo por R$ 799,00").toList) ++ ' ' :: []) = false := by decide
    rw [hi] at h
    simpa using h

/-! ## Claim C3: the deal scorer -/

/-- C3: the deal scorer computes savings as market minus promo, the discount
percentage as the rounded savings share when the market price is positive and
0 otherwise, flags a good deal iff savings strictly exceed 50 and the promo
price is strictly below 500 (savings 50 at promo 499 is not good, savings 51
is), and grades quality BAD when promo is at least market, else EXCELLENT,
VERY GOOD, GOOD, REGULAR by the 30/15/5 percent savings thresholds. -/
theorem claim_C3 :
    (∀ promo market : ℚ,
      (scoreDeal promo market).savings_vs_market = market - promo ∧
      (scoreDeal promo market).discount_percentage =
        (if 0 < market then round1 ((market - promo) / market * 100) else 0) ∧
      ((scoreDeal promo market).is_good_deal = true ↔
        50 < market - promo ∧ promo < 500) ∧
      (market ≤ promo → (scoreDeal promo market).deal_quality = DealQuality.RUIM) ∧
      (promo < market → 30 ≤ (market - promo) / market * 100 →
        (scoreDeal promo market).deal_quality = DealQuality.EXCELENTE) ∧
      (promo < market → (market - promo) / market * 100 < 30 →
        15 ≤ (market - promo) / market * 100 →
        (scoreDeal promo market).deal_quality = DealQuality.MUITO_BOA) ∧
      (promo < market → (market - promo) / market * 100 < 15 →
        5 ≤ (market - promo) / market * 100 →
        (scoreDeal promo market).deal_quality = DealQuality.BOA) ∧
      (promo < market → (market - promo) / market * 100 < 5 →
        (scoreDeal promo market).deal_quality = DealQuality.REGULAR)) ∧
    (scoreDeal 499 549).is_good_deal = false ∧
    (scoreDeal 499 550).is_good_deal = true := by
  refine ⟨?_, by with_unfolding_all rfl, by with_unfolding_all rfl⟩
  intro promo market
  refine ⟨rfl, rfl, ?_, ?_, ?_, ?_, ?_, ?_⟩
  · simp [scoreDeal]
  · intro h
    simp only [scoreDeal]
    unfold rate_deal_quality
    rw [if_pos h]
  · intro h1 h2
    simp only [scoreDeal]
    unfold rate_deal_quality
    rw [if_neg (not_le.mpr h1), if_pos h2]
  · intro h1 h2 h3
    simp only [scoreDeal]
    unfold rate_deal_quality
    rw [if_neg (not_le.mpr h1), if_neg (not_le.mpr h2), if_pos h3]
  · intro h1 h2 h3
    simp only [scoreDeal]
    unfold rate_deal_quality
    rw [if_neg (not_le.mpr h1), if_neg (not_le.mpr (by linarith)), if_neg (not_le.mpr h2),
      if_pos h3]
  · intro h1 h2
    simp only [scoreDeal]
    unfold rate_deal_quality
    rw [if_neg (not_le.mpr h1), if_neg (not_le.mpr (by linarith)),
      if_neg (not_le.mpr (by linarith)), if_neg (not_le.mpr h2)]

theorem claim_C3_witness :
    (scoreDeal 420 600).deal_quality = DealQuality.EXCELENTE :=
  (claim_C3.1 420 600).2.2.2.2.1 (by norm_num) (by norm_num)

/-! ## Claim C9: the mileage estimator -/

theorem pyInt_eq_floor {q : ℚ} (h : 0 ≤ q) : pyInt q = ⌊q⌋ := by
  unfold pyInt
  rw [Int.tdiv_eq_ediv (Rat.num_nonneg.mpr h) (Int.natCast_nonneg _)]
  exact Rat.floor_def.symm

theorem argminEst_choice :
    ∀ (xs : List (List Char × MilesEstimate)) (b : List Char × MilesEstimate),
      argminEst b xs = b ∨ argminEst b xs ∈ xs := by
  intro xs
  induction xs with
  | nil => intro b; left; rfl
  | cons x xs ih =>
    intro b
    unfold argminEst
    split_ifs with h
    · rcases ih x with h2 | h2
      · right; rw [h2]; exact List.mem_cons_self x xs
      · right; exact List.mem_cons_of_mem _ h2
    · rcases ih b with h2 | h2
      · left; exact h2
      · right; exact List.mem_cons_of_mem _ h2

theorem argminEst_le :
    ∀ (xs : List (List Char × MilesEstimate)) (b : List Char × MilesEstimate),
      (argminEst b xs).2.estimated_miles ≤ b.2.estimated_miles ∧
        ∀ x ∈ xs, (argminEst b xs).2.estimated_miles ≤ x.2.estimated_miles := by
  intro xs
  induction xs with
  | nil => intro b; exact ⟨le_refl _, by simp⟩
  | cons x xs ih =>
    intro b
    unfold argminEst
    split_ifs with h
    · obtain ⟨ha, hb⟩ := ih x
      refine ⟨le_trans ha (le_of_lt h), ?_⟩
      intro y hy
      rcases List.mem_cons.mp hy with rfl | hy
      · exact ha
      · exact hb y hy
    · obtain ⟨ha, hb⟩ := ih b
      refine ⟨ha, ?_⟩
      intro y hy
      rcases List.mem_cons.mp hy with rfl | hy
      · exact le_trans ha (not_lt.mp h)
      · exact hb y hy

/-- C9: for a positive cash price, each configured program's estimate is
`max(floor(cash * rate * 1000), minPoints)` points, with savings equal to
cash minus the fixed fees and "worth using points" iff those savings exceed
50; the selected best program carries the minimum estimated point count; for
the Smiles program (rate 0.025, minimum 15000) a cash price of 100 yields
15000 points. -/
theorem claim_C9 :
    (∀ cash : ℚ, 0 < cash →
      (∀ p ∈ milesPrograms,
        (mkEstimate cash p).estimated_miles = max ⌊cash * p.rate * 1000⌋ p.min_miles ∧
        (mkEstimate cash p).savings_vs_cash = cash - p.fees ∧
        ((mkEstimate cash p).worth_using_miles = true ↔ 50 < cash - p.fees)) ∧
      bestMilesOption cash ∈ estsList cash ∧
      (∀ e ∈ estsList cash, (bestMilesOption cash).2.estimated_miles ≤
        e.2.estimated_miles)) ∧
    (mkEstimate 100 smilesProgram).estimated_miles = 15000 := by
  refine ⟨?_, by with_unfolding_all rfl⟩
  intro cash hc
  have hbest : bestMilesOption cash =
      argminEst (smilesProgram.pname, mkEstimate cash smilesProgram)
        [(tudoAzulProgram.pname, mkEstimate cash tudoAzulProgram),
         (latamPassProgram.pname, mkEstimate cash latamPassProgram),
         (liveloProgram.pname, mkEstimate cash liveloProgram)] := rfl
  have hests : estsList cash =
      (smilesProgram.pname, mkEstimate cash smilesProgram) ::
        [(tudoAzulProgram.pname, mkEstimate cash tudoAzulProgram),
         (latamPassProgram.pname, mkEstimate cash latamPassProgram),
         (liveloProgram.pname, mkEstimate cash liveloProgram)] := rfl
  refine ⟨?_, ?_, ?_⟩
  · intro p hp
    have hrate : 0 < p.rate := by
      simp only [milesPrograms, List.mem_cons, List.not_mem_nil, or_false] at hp
      rcases hp with rfl | rfl | rfl | rfl <;>
        norm_num [smilesProgram, tudoAzulProgram, latamPassProgram, liveloProgram]
    have hnn : (0 : ℚ) ≤ cash * p.rate * 1000 :=
      mul_nonneg (mul_nonneg hc.le hrate.le) (by norm_num)
    refine ⟨?_, rfl, ?_⟩
    · simp only [mkEstimate]
      rw [pyInt_eq_floor hnn]
    · simp [mkEstimate]
  · rw [hbest, hests]
    rcases argminEst_choice
      [(tudoAzulProgram.pname, mkEstimate cash tudoAzulProgram),
       (latamPassProgram.pname, mkEstimate cash latamPassProgram),
       (liveloProgram.pname, mkEstimate cash liveloProgram)]
      (smilesProgram.pname, mkEstimate cash smilesProgram) with h | h
    · rw [h]; exact List.mem_cons_self _ _
    · exact List.mem_cons_of_mem _ h
  · intro e he
    rw [hbest]
    rw [hests] at he
    obtain ⟨ha, hb⟩ := argminEst_le
      [(tudoAzulProgram.pname, mkEstimate cash tudoAzulProgram),
       (latamPassProgram.pname, mkEstimate cash latamPassProgram),
       (liveloProgram.pname, mkEstimate cash liveloProgram)]
      (smilesProgram.pname, mkEstimate cash smilesProgram)
    rcases List.mem_cons.mp he with rfl | he
    · exact ha
    · exact hb e he

theorem claim_C9_witness :
    (mkEstimate 100 smilesProgram).estimated_miles =
      max ⌊(100 : ℚ) * smilesProgram.rate * 1000⌋ smilesProgram.min_miles :=
  (((claim_C9.1 100 (by norm_num)).1 smilesProgram (by simp [milesPrograms]))).1

end PromoAlerts
